import Mathlib

/-!
Shallow embedding of `src/lab4/heap-mgmt/os/memory.c`: the frame allocator
(bitmap `freemap` plus `nfreepages`), the user/system address translator and
cross-space copier, the page-fault handler, and the per-process buddy heap
allocator (`malloc`, `MemoryNodeSearch`, `MemorySplitNode`, `mfree`,
`MemoryCoalescing`).

Machine integers are modelled as `Nat` with explicit `% 2^32` where 32-bit
wraparound matters.  C `NULL` pointers become `Option.none`; pointers into the
per-process node array become array indices.  Recursions that the C code bounds
only by the finiteness of the data structure take an explicit fuel argument;
exhausting the fuel (and C paths that dereference invalid pointers or loop
forever) are modelled by a distinguished `none` result.
-/

namespace Memory

set_option maxRecDepth 100000

/-- Modelled from the spec: the constants of `memory.h` are not part of the
provided source.  The page size is 4096 bytes, consistent with the hard-coded
page masks `0x1FF000` and `0x1FFFFC` in `memory.c` (offset field of 12 bits,
page-number field of 9 bits, 512 frames matching `uint32 freemap[16]`). -/
def MEM_PAGESIZE : Nat := 4096

/-- Modelled from the spec: failure sentinel; the spec describes sentinel
error signalling with fixed negative constants, and `memory.c` compares
`MemoryAllocPage`'s result against `MEM_FAIL` where every genuine page number
is nonnegative. -/
def MEM_FAIL : Int := -1

/-- Modelled from the spec: success sentinel returned by the page-fault
handler. -/
def MEM_SUCCESS : Int := 1

/-- Modelled from the spec: validity flag of a page-table entry (the low bit,
or-ed into a page-aligned address by `MemorySetupPte`). -/
def MEM_PTE_VALID : Nat := 1

/-- Modelled from the spec: mask extracting the page-number bits of a PTE or
address; it matches the stack-page mask `0x1FF000` hard-coded in
`MemoryPageFaultHandler`. -/
def MEM_MASK_PTE2PAGE : Nat := 0x1FF000

/-- Modelled from the spec: mask extracting the in-page offset of an
address. -/
def MEM_ADDR_OFFS_MASK : Nat := 0xFFF

/-- Modelled from the spec: mask extracting the in-page (heap-relative)
offset used by `mfree`. -/
def MEM_PAGE_OFFSET_MASK : Nat := 0xFFF

/-- Modelled from the spec: capacity of the per-process buddy-tree array, a
complete binary tree over the one-page heap region with minimum block size 32
(root order `log2(4096/32) = 7`, 1-based indices `1..255`). -/
def MEM_NUM_NODES : Nat := 256

/-- Modelled from the spec: `MEM_ADDR2PAGE` from `memory.h`, the page number
of a virtual address. -/
def MEM_ADDR2PAGE (addr : Nat) : Nat := addr >>> 12

/-- Modelled from the spec: `MEM_ADDR2OFFS` from `memory.h`, the in-page
offset of a virtual address. -/
def MEM_ADDR2OFFS (addr : Nat) : Nat := addr &&& MEM_ADDR_OFFS_MASK

/-- The `static int negativeone = 0xFFFFFFFF` of `memory.c`, read as the
`uint32` it is used as. -/
def negativeone : Nat := 0xFFFFFFFF

/-- `invert` from `memory.c`: 32-bit complement via xor with `negativeone`. -/
def invert (n : Nat) : Nat := n ^^^ negativeone

/-- The global frame-allocator state of `memory.c`: the bitmap words
(`uint32 freemap[16]`, modelled as a total map from word index; bit set means
the frame is free), `freemapmax`, `pagestart` and the free counter
`nfreepages` (a C `int`, hence `Int`). -/
structure FrameState where
  freemap : Nat → Nat
  freemapmax : Nat
  pagestart : Nat
  nfreepages : Int

/-- `MemoryEditFreemap` from `memory.c`: set bit `page % 32` of word
`page / 32` to `val`. -/
def MemoryEditFreemap (s : FrameState) (page : Nat) (val : Nat) : FrameState :=
  let index := page / 32
  let bit_position := page % 32
  { s with freemap := fun k =>
      if k = index then
        (s.freemap index &&& invert (1 <<< bit_position)) ||| (val <<< bit_position)
      else s.freemap k }

/-- The `for (i = pagestart; i < maxpage; i++)` loop of `MemoryModuleInit`:
each iteration increments `nfreepages` and frees page `i` in the bitmap. -/
def initLoop (s : FrameState) (start n : Nat) : FrameState :=
  (List.range' start n).foldl
    (fun s i => MemoryEditFreemap { s with nfreepages := s.nfreepages + 1 } i 1) s

/-- `MemoryModuleInit` from `memory.c`, as a function of the simulator memory
size and `lastosaddress`.  The initial `nfreepages = MEM_NUM_PAGES - ospages`
store in the source is dead (immediately overwritten by `0`) and is not
modelled.  The `static` array starts zeroed, so the bitmap starts all-zero. -/
def MemoryModuleInit (memsize lastosaddress : Nat) : FrameState :=
  let maxpage := memsize / MEM_PAGESIZE
  let ospages := (lastosaddress &&& 0x1FFFFC) / MEM_PAGESIZE
  let s0 : FrameState :=
    { freemap := fun _ => 0
      freemapmax := (maxpage + 31) / 32
      pagestart := ospages + 1
      nfreepages := 0 }
  initLoop s0 (ospages + 1) (maxpage - (ospages + 1))

/-- The scan `while(freemap[index] == 0) index += 1` of `MemoryAllocPage`,
searching upward from `start`; `none` models the scan running off the words
it will ever find nonzero (in C: looping forever). -/
def lowestNonzeroWord (f : Nat → Nat) : Nat → Nat → Option Nat
  | _, 0 => none
  | start, fuel + 1 => if f start ≠ 0 then some start else lowestNonzeroWord f (start + 1) fuel

/-- The scan `for(bit_position = 0; (fm_segment & (1 << bit_position)) == 0; ...)`
of `MemoryAllocPage`, searching upward from `start`; `none` models the loop
finding no set bit among the 32 bits of a word. -/
def lowestSetBit (w : Nat) : Nat → Nat → Option Nat
  | _, 0 => none
  | start, fuel + 1 => if w &&& (1 <<< start) ≠ 0 then some start else lowestSetBit w (start + 1) fuel

/-- `MemoryAllocPage` from `memory.c`.  Returns `some (MEM_FAIL, s)` when
`nfreepages == 0`, `some (page, s')` on success, and `none` when the C scans
would not terminate (no nonzero word / no set bit). -/
def MemoryAllocPage (s : FrameState) : Option (Int × FrameState) :=
  if s.nfreepages = 0 then some (MEM_FAIL, s)
  else
    match lowestNonzeroWord s.freemap 0 s.freemapmax with
    | none => none
    | some index =>
      match lowestSetBit (s.freemap index) 0 32 with
      | none => none
      | some bit_position =>
        some (((index * 32 + bit_position : Nat) : Int),
          { s with
            freemap := fun k =>
              if k = index then s.freemap index &&& invert (1 <<< bit_position)
              else s.freemap k
            nfreepages := s.nfreepages - 1 })

/-- `MemorySetupPte` from `memory.c`: `(page * MEM_PAGESIZE) | MEM_PTE_VALID`
in 32-bit arithmetic. -/
def MemorySetupPte (page : Nat) : Nat :=
  ((page * MEM_PAGESIZE) % 2 ^ 32) ||| MEM_PTE_VALID

/-- `MemoryFreePage` from `memory.c`: mark the frame free and increment
`nfreepages`. -/
def MemoryFreePage (s : FrameState) (page : Nat) : FrameState :=
  let s1 := MemoryEditFreemap s page 1
  { s1 with nfreepages := s1.nfreepages + 1 }

/-- `MemoryFreePageTableEntry` from `memory.c`: extract the frame from a PTE
and free it. -/
def MemoryFreePageTableEntry (s : FrameState) (pte : Nat) : FrameState :=
  MemoryFreePage s ((pte &&& MEM_MASK_PTE2PAGE) / MEM_PAGESIZE)

/-- Frame `f` is marked free in the bitmap (bit `f % 32` of word `f / 32`). -/
def frameFree (s : FrameState) (f : Nat) : Bool :=
  (s.freemap (f / 32)).testBit (f % 32)

/-- A process page table: one 32-bit PTE per virtual page, modelled as a
total map from page number (`uint32 *pagetable` in the PCB). -/
def PageTable : Type := Nat → Nat

/-- `MemoryTranslateUserToSystem` from `memory.c`.  The function returns
`uint32`, so the `return MEM_FAIL` on an invalid PTE is the 32-bit value
`0xFFFFFFFF`. -/
def MemoryTranslateUserToSystem (pt : PageTable) (addr : Nat) : Nat :=
  let page := MEM_ADDR2PAGE addr
  let offset := MEM_ADDR2OFFS addr
  if pt page &&& MEM_PTE_VALID ≠ 0 then
    (pt page &&& MEM_MASK_PTE2PAGE) ||| offset
  else
    (MEM_FAIL % 2 ^ 32).toNat

/-- The `while (n > 0)` loop of `MemoryMoveBetweenSpaces`.  Each iteration
copies at least one byte, so fuel `n` is enough; the byte contents moved by
`bcopy` do not affect the returned count and are not modelled, only the
address walk is.  `user` is the current user-space virtual address (a 32-bit
pointer, truncated when passed to the translator). -/
def MemoryMoveBetweenSpacesGo (pt : PageTable) : Nat → Nat → Nat → Nat
  | 0, _, _ => 0
  | fuel + 1, user, n =>
    if n = 0 then 0
    else
      let curUser := MemoryTranslateUserToSystem pt (user % 2 ^ 32)
      if curUser = 0 then 0
      else
        let bytesInPage := MEM_PAGESIZE - (curUser &&& MEM_ADDR_OFFS_MASK)
        let bytesToCopy := if bytesInPage > n then n else bytesInPage
        bytesToCopy + MemoryMoveBetweenSpacesGo pt fuel (user + bytesToCopy) (n - bytesToCopy)

/-- `MemoryMoveBetweenSpaces` from `memory.c`, returning the number of bytes
copied.  The direction argument only selects the `bcopy` operand order and
cannot change the count, so it is not modelled. -/
def MemoryMoveBetweenSpaces (pt : PageTable) (user : Nat) (n : Nat) : Nat :=
  MemoryMoveBetweenSpacesGo pt n user n

/-- Result of one `MemoryPageFaultHandler` invocation: the returned code, the
updated page table and `npages` of the faulting process, the updated frame
allocator state, and whether `ProcessKill` was invoked (the termination
primitive is an external collaborator; the call is recorded and, as in the
source text, control continues past it). -/
structure PFResult where
  ret : Int
  killed : Bool
  pagetable : PageTable
  npages : Nat
  frames : FrameState

/-- `MemoryPageFaultHandler` from `memory.c`.  `usp` and `fault` are the
saved user stack pointer and fault address; `usp` is masked with `0x1FF000`
before the comparison.  On exhaustion (`MemoryAllocPage` returns `MEM_FAIL`)
the source calls `ProcessKill` but has no `return`, so execution falls
through and installs a PTE built from the sentinel.  `none` propagates the
allocator's nontermination marker. -/
def MemoryPageFaultHandler (fs : FrameState) (pt : PageTable) (npages : Nat)
    (usp fault : Nat) : Option PFResult :=
  let user_stack_ptr := usp &&& 0x1FF000
  let pg_fault_addr := MEM_ADDR2PAGE fault
  if fault < user_stack_ptr then
    some { ret := MEM_FAIL, killed := true, pagetable := pt, npages := npages, frames := fs }
  else
    match MemoryAllocPage fs with
    | none => none
    | some (genPage, fs') =>
      some { ret := MEM_SUCCESS
             killed := genPage = MEM_FAIL
             pagetable := fun k =>
               if k = pg_fault_addr then MemorySetupPte (genPage % 2 ^ 32).toNat else pt k
             npages := npages + 1
             frames := fs' }

/-- One buddy-tree node, mirroring the C `Node` struct: the pointer fields
`parent`, `left`, `right` become optional indices into the per-process node
array (`none` is `NULL`); `size`, `order`, `address`, `inuse` and `index` are
C `int`s holding nonnegative values. -/
structure Node where
  parent : Option Nat
  left : Option Nat
  right : Option Nat
  size : Nat
  order : Nat
  address : Nat
  inuse : Nat
  index : Nat
deriving DecidableEq

/-- The per-process `heap_array`, modelled as a total map from array index. -/
def Heap : Type := Nat → Node

/-- Write node `x` at index `i` of the array. -/
def hset (h : Heap) (i : Nat) (x : Node) : Heap :=
  fun k => if k = i then x else h k

/-- Modelled from the spec: the `heap_array` initialization lives in
`process.c`, which is not part of the provided source.  Per the spec's data
model, the root (index 1) spans the whole one-page region at heap-relative
address 0 with order `log2(4096/32) = 7`, every node is identified by its
array position (the `index` field), and all other slots start inert
(zeroed, links `NULL`). -/
def initialHeap : Heap := fun k =>
  if k = 1 then
    { parent := none, left := none, right := none,
      size := MEM_PAGESIZE, order := 7, address := 0, inuse := 0, index := 1 }
  else
    { parent := none, left := none, right := none,
      size := 0, order := 0, address := 0, inuse := 0, index := k }

/-- `MemoryNodeSearch` from `memory.c`: depth-first search for a free leaf
(`left == NULL && inuse == 0`) whose size satisfies
`memsize <= size && memsize > size / 2`; marks it in use and returns its
heap-relative address.  The C recursion over child pointers is bounded by
fuel; `(none, h)` is the C `-1` (also used on fuel exhaustion).  `memsize`
is a `Nat` because `malloc` only forwards requests already checked to be
positive. -/
def MemoryNodeSearch : Nat → Heap → Option Nat → Nat → Option Nat × Heap
  | _, h, none, _ => (none, h)
  | 0, h, some _, _ => (none, h)
  | fuel + 1, h, some i, memsize =>
    let nd := h i
    if nd.left = none ∧ nd.inuse = 0 then
      if memsize ≤ nd.size ∧ nd.size / 2 < memsize then
        (some nd.address, hset h i { nd with inuse := 1 })
      else
        (none, h)
    else
      match MemoryNodeSearch fuel h nd.left memsize with
      | (some a, h1) => (some a, h1)
      | (none, h1) => MemoryNodeSearch fuel h1 nd.right memsize

/-- The child-materializing block of `MemorySplitNode`: create the two
half-size children of node `i` at array slots `2*index` and `2*index+1` (the
source sets `parent`, `left`, `right`, `size`, `order`, `address` of each
child but leaves the slot's previous `inuse` and `index` fields in place)
and link them into node `i`. -/
def splitChildren (h : Heap) (i : Nat) : Heap :=
  let nd := h i
  let li := 2 * nd.index
  let ri := 2 * nd.index + 1
  let h1 := hset h li
    { h li with parent := some i, left := none, right := none, size := nd.size / 2, order := nd.order - 1, address := nd.address }
  let h2 := hset h1 ri
    { h1 ri with parent := some i, left := none, right := none, size := nd.size / 2, order := nd.order - 1, address := nd.address + nd.size / 2 }
  hset h2 i { h2 i with left := some (2 * nd.index), right := some (2 * nd.index + 1) }

/-- `MemorySplitNode` from `memory.c`.  On a free leaf it first retries the
allocation predicate; then rejects when even half the block is too small or
the node is of order 0; otherwise it splits the node (`splitChildren`), and
in every remaining case falls through to recurse on the (possibly just
created) children. -/
def MemorySplitNode : Nat → Heap → Option Nat → Nat → Option Nat × Heap
  | _, h, none, _ => (none, h)
  | 0, h, some _, _ => (none, h)
  | fuel + 1, h, some i, memsize =>
    let nd := h i
    if nd.left = none ∧ nd.inuse = 0 then
      if memsize ≤ nd.size ∧ nd.size / 2 < memsize then
        (some nd.address, hset h i { nd with inuse := 1 })
      else if nd.size / 2 < memsize then
        (none, h)
      else if nd.order = 0 then
        (none, h)
      else
        match MemorySplitNode fuel (splitChildren h i) ((splitChildren h i) i).left memsize with
        | (some a, h4) => (some a, h4)
        | (none, h4) => MemorySplitNode fuel h4 ((splitChildren h i) i).right memsize
    else
      match MemorySplitNode fuel h nd.left memsize with
      | (some a, h1) => (some a, h1)
      | (none, h1) => MemorySplitNode fuel h1 nd.right memsize

/-- `malloc` from `memory.c` (return value and heap effect; the diagnostic
`printf` and its physical-address translation do not affect either and are
not modelled).  Rejects `memsize <= 0` and `memsize > MEM_PAGESIZE`, then
searches from the root (`&heap_array[1]`), then splits.  On success the
returned virtual address tags the block's heap-relative address with the
fixed heap-page selector `MEM_PAGESIZE * 4`. -/
def malloc (h : Heap) (memsize : Int) : Option Nat × Heap :=
  if memsize ≤ 0 ∨ (MEM_PAGESIZE : Int) < memsize then (none, h)
  else
    match MemoryNodeSearch MEM_NUM_NODES h (some 1) memsize.toNat with
    | (some block, h1) => (some ((MEM_PAGESIZE * 4) ||| block), h1)
    | (none, h1) =>
      match MemorySplitNode MEM_NUM_NODES h1 (some 1) memsize.toNat with
      | (some block, h2) => (some ((MEM_PAGESIZE * 4) ||| block), h2)
      | (none, h2) => (none, h2)

/-- The reset performed at the top of `MemoryCoalescing`: clear the node's
`inuse` flag and detach its child links. -/
def resetNode (h : Heap) (i : Nat) : Heap :=
  hset h i { h i with inuse := 0, left := none, right := none }

/-- `MemoryCoalescing` from `memory.c`: reset the node (`inuse = 0`, child
links `NULL`), then, if it has a parent, locate the sibling through the
parent's child links and recurse on the parent when that sibling's `inuse`
is 0.  The C recursion over parent pointers is bounded by fuel; `none`
models fuel exhaustion and the null-pointer dereference the source performs
when the consulted child link is `NULL`. -/
def MemoryCoalescing : Nat → Heap → Option Nat → Option Heap
  | _, h, none => some h
  | 0, _, some _ => none
  | fuel + 1, h, some i =>
    let h1 := resetNode h i
    match (h1 i).parent with
    | none => some h1
    | some p =>
      if (h1 p).left = some i then
        match (h1 p).right with
        | none => none
        | some r =>
          if (h1 r).inuse = 0 then MemoryCoalescing fuel h1 (some p) else some h1
      else
        match (h1 p).left with
        | none => none
        | some l =>
          if (h1 l).inuse = 0 then MemoryCoalescing fuel h1 (some p) else some h1

/-- The lookup loop of `mfree`: scan `heap_array[1] .. heap_array[255]` and
remember the last index whose `address` equals the heap-relative address.
`none` means the loop matched nothing, in which case the C local `node` is
left uninitialized. -/
def mfreeFind (h : Heap) (heap_address : Nat) : Option Nat :=
  (List.range' 1 (MEM_NUM_NODES - 1)).foldl
    (fun acc i => if (h i).address = heap_address then some i else acc) none

/-- `mfree` from `memory.c` (return value and heap effect; the diagnostic
`printf` is not modelled).  Rejects `NULL` and pointers outside the heap
page `[4*MEM_PAGESIZE, 5*MEM_PAGESIZE)` with `MEM_FAIL`; otherwise looks up
the node recorded at the pointer's in-page offset and coalesces it,
returning the (post-coalescing) node's size.  `none` marks the undefined
behavior of the source when the lookup matches no node (the uninitialized
`node` pointer is dereferenced) and coalescing's own invalid-pointer
marker. -/
def mfree (h : Heap) (ptr : Int) : Option (Int × Heap) :=
  if ptr = 0 then some (MEM_FAIL, h)
  else if 5 * (MEM_PAGESIZE : Int) ≤ ptr ∨ ptr < 4 * (MEM_PAGESIZE : Int) then
    some (MEM_FAIL, h)
  else
    let heap_address := ptr.toNat &&& MEM_PAGE_OFFSET_MASK
    match mfreeFind h heap_address with
    | none => none
    | some i =>
      match MemoryCoalescing MEM_NUM_NODES h (some i) with
      | none => none
      | some h2 => some (((h2 i).size : Int), h2)

/-- A page table with no valid mapping. -/
def zeroPageTable : PageTable := fun _ => 0

/-- A frame-allocator state with every frame allocated and no free page:
`MemoryAllocPage` on it reports exhaustion. -/
def exhaustedFrames : FrameState :=
  { freemap := fun _ => 0, freemapmax := 16, pagestart := 1, nfreepages := 0 }

/-- A page table mapping virtual page 0 to frame 1 and nothing else. -/
def ptOneMapped : PageTable := fun p => if p = 0 then MemorySetupPte 1 else 0

/-- A small allocator state: frames 2 and 3 free (word 0 is `0b1100`),
counter 2. -/
def smallFrames : FrameState :=
  { freemap := fun k => if k = 0 then 12 else 0, freemapmax := 1,
    pagestart := 2, nfreepages := 2 }

/-- The state `MemoryAllocPage` leaves behind on `smallFrames`. -/
def smallFramesAfter : FrameState :=
  { smallFrames with
    freemap := fun k =>
      if k = 0 then smallFrames.freemap 0 &&& invert (1 <<< 2) else smallFrames.freemap k
    nfreepages := smallFrames.nfreepages - 1 }

/-- One call into the frame allocator: `MemoryAllocPage()` or
`MemoryFreePage(p)`. -/
inductive FrameOp where
  | alloc : FrameOp
  | free : Nat → FrameOp

/-- State after one call.  An allocator whose scan would not terminate
(`none`, impossible in the reachable states considered) is left in place. -/
def stepState (s : FrameState) : FrameOp → FrameState
  | FrameOp.alloc =>
    match MemoryAllocPage s with
    | some (_, s1) => s1
    | none => s
  | FrameOp.free p => MemoryFreePage s p

/-- Bookkeeping (not part of the program state): the set of frames handed
out by `MemoryAllocPage` and not yet freed. -/
def stepOutstanding (s : FrameState) (A : Finset Nat) : FrameOp → Finset Nat
  | FrameOp.alloc =>
    match MemoryAllocPage s with
    | some (g, _) => if 0 ≤ g then insert g.toNat A else A
    | none => A
  | FrameOp.free p => A.erase p

/-- A call is legal when it respects the caller contract of `memory.c`:
`MemoryFreePage` is only invoked on a frame previously returned by
`MemoryAllocPage` and not yet freed (no double-free). -/
def legalOp (A : Finset Nat) : FrameOp → Bool
  | FrameOp.alloc => true
  | FrameOp.free p => decide (p ∈ A)

/-- Every call of the sequence is legal in the state it executes in. -/
def legalTrace : FrameState → Finset Nat → List FrameOp → Bool
  | _, _, [] => true
  | s, A, op :: ops =>
    legalOp A op && legalTrace (stepState s op) (stepOutstanding s A op) ops

/-- Execute a call sequence, tracking the outstanding set. -/
def runTrace : FrameState → Finset Nat → List FrameOp → FrameState × Finset Nat
  | s, A, [] => (s, A)
  | s, A, op :: ops => runTrace (stepState s op) (stepOutstanding s A op) ops

/-- Number of usable frames (below `maxpage`) currently marked free. -/
def freeCount (maxpage : Nat) (s : FrameState) : Nat :=
  ((Finset.range maxpage).filter (fun f => frameFree s f = true)).card

/-- Number of usable frames (below `maxpage`) currently marked allocated. -/
def allocatedCount (maxpage : Nat) (s : FrameState) : Nat :=
  ((Finset.range maxpage).filter (fun f => ¬ frameFree s f = true)).card

/-- The reachable-state invariant of the frame allocator: genuine 32-bit
words, no stray bits at or beyond `maxpage` or beyond `freemapmax`, the
counter agreeing with the bitmap, and every outstanding frame a usable frame
currently marked allocated. -/
def FrameInv (maxpage : Nat) (s : FrameState) (A : Finset Nat) : Prop :=
  (∀ k, s.freemap k < 2 ^ 32) ∧
    (∀ k, s.freemapmax ≤ k → s.freemap k = 0) ∧
    maxpage ≤ 32 * s.freemapmax ∧
    (∀ f, maxpage ≤ f → frameFree s f = false) ∧
    s.nfreepages = (freeCount maxpage s : Int) ∧
    ∀ p ∈ A, p < maxpage ∧ frameFree s p = false

/-- A two-level buddy tree: the root (1) is split into children 2 and 3;
node 2 is a free leaf and node 3 is allocated. -/
def heapW : Heap := fun k =>
  if k = 1 then
    { parent := none, left := some 2, right := some 3,
      size := 4096, order := 7, address := 0, inuse := 0, index := 1 }
  else if k = 2 then
    { parent := some 1, left := none, right := none,
      size := 2048, order := 6, address := 0, inuse := 0, index := 2 }
  else if k = 3 then
    { parent := some 1, left := none, right := none,
      size := 2048, order := 6, address := 2048, inuse := 1, index := 3 }
  else
    { parent := none, left := none, right := none,
      size := 0, order := 0, address := 0, inuse := 0, index := k }

/-- Like `heapW` but with node 3 free as well, so freeing node 2 coalesces
up to the root. -/
def heapW2 : Heap := fun k =>
  if k = 3 then
    { parent := some 1, left := none, right := none,
      size := 2048, order := 6, address := 2048, inuse := 0, index := 3 }
  else heapW k

/-- C1: on a fault at or above the stack pointer's page with the frame
allocator exhausted, the handler does call the termination primitive, but —
lacking a `return` after `ProcessKill` in that branch, in contrast with the
explicit `ProcessKill(); return MEM_FAIL;` of the seg-fault branch — it falls
through, installs the PTE `0xFFFFF001` built from the `MEM_FAIL` sentinel for
the faulting page, increments the mapped-page count, and returns
`MEM_SUCCESS`, contradicting the claimed `Failure` outcome. -/
theorem pageFaultHandler_exhaustion_falls_through_to_success :
    (MemoryPageFaultHandler exhaustedFrames zeroPageTable 0 (8 * 4096) (8 * 4096)).map
        (fun r => (r.ret, r.killed, r.npages, r.pagetable 8))
      = some (MEM_SUCCESS, true, 1, 4294963201) := by
  decide

/-- C2: over a user range spanning one mapped page (96 bytes of page 0 from
offset 4000) followed by an unmapped page, the copy routine does not stop at
the unmapped address and returns the full 200 requested bytes instead of the
mapped-page byte count 96: the translator signals `Unmapped` with the 32-bit
value of `MEM_FAIL` (`0xFFFFFFFF`), which the loop's `curUser == NULL` test
never matches. -/
theorem moveBetweenSpaces_does_not_stop_at_unmapped :
    MemoryMoveBetweenSpaces ptOneMapped 4000 200 = 200 ∧
      MemoryTranslateUserToSystem ptOneMapped 4096 = 4294967295 := by
  decide

/-- C3: freeing a heap-page pointer whose offset (here 100) matches the
recorded address of no node: the lookup loop of `mfree` finds no match,
`node` is never assigned, and the source proceeds to
`MemoryCoalescing(node)` and `node->size` on the uninitialized pointer —
undefined behavior (the `none` result of the embedding) rather than the
claimed `Failure` return with the tree unchanged. -/
theorem mfree_unmatched_address_is_undefined :
    mfreeFind initialHeap 100 = none ∧ mfree initialHeap (4 * 4096 + 100) = none := by
  exact ⟨by decide, rfl⟩

/-- C9: for every frame number representable in the 9-bit page-number field,
destroying the PTE built by `MemorySetupPte p` frees exactly frame `p`:
masking the PTE with `MEM_MASK_PTE2PAGE` and dividing by the page size
recovers `p`, so `MemoryFreePageTableEntry` on it is `MemoryFreePage p`, in
any allocator state. -/
theorem freePageTableEntry_setupPte_roundtrip (s : FrameState) (p : Nat)
    (hp : p < 512) :
    MemoryFreePageTableEntry s (MemorySetupPte p) = MemoryFreePage s p := by
  have h : ∀ q < 512, (MemorySetupPte q &&& MEM_MASK_PTE2PAGE) / MEM_PAGESIZE = q := by
    decide
  unfold MemoryFreePageTableEntry
  rw [h p hp]

/-- Witness for C9 at frame 5. -/
theorem freePageTableEntry_setupPte_roundtrip_witness :
    MemoryFreePageTableEntry exhaustedFrames (MemorySetupPte 5)
      = MemoryFreePage exhaustedFrames 5 :=
  freePageTableEntry_setupPte_roundtrip exhaustedFrames 5 (by decide)

theorem lowestNonzeroWord_eq_some (f : Nat → Nat) :
    ∀ fuel start i, lowestNonzeroWord f start fuel = some i →
      f i ≠ 0 ∧ start ≤ i ∧ i < start + fuel ∧ ∀ j, start ≤ j → j < i → f j = 0 := by
  intro fuel
  induction fuel with
  | zero => intro start i h; simp [lowestNonzeroWord] at h
  | succ n ih =>
    intro start i h
    rw [lowestNonzeroWord] at h
    by_cases hs : f start ≠ 0
    · rw [if_pos hs] at h
      obtain rfl : start = i := Option.some.inj h
      exact ⟨hs, Nat.le_refl _, by omega, fun j h1 h2 => absurd h1 (by omega)⟩
    · rw [if_neg hs] at h
      obtain ⟨h1, h2, h3, h4⟩ := ih (start + 1) i h
      refine ⟨h1, by omega, by omega, fun j hj1 hj2 => ?_⟩
      rcases Nat.eq_or_lt_of_le hj1 with hj | hj
      · simpa [← hj] using hs
      · exact h4 j hj hj2

theorem lowestNonzeroWord_isSome (f : Nat → Nat) :
    ∀ fuel start j, start ≤ j → j < start + fuel → f j ≠ 0 →
      (lowestNonzeroWord f start fuel).isSome = true := by
  intro fuel
  induction fuel with
  | zero => intro start j h1 h2 _; omega
  | succ n ih =>
    intro start j h1 h2 h3
    rw [lowestNonzeroWord]
    by_cases hs : f start ≠ 0
    · rw [if_pos hs]; rfl
    · rw [if_neg hs]
      have hj : start + 1 ≤ j := by
        rcases Nat.eq_or_lt_of_le h1 with h | h
        · exact absurd (by simpa [← h] using h3) hs
        · omega
      exact ih (start + 1) j hj (by omega) h3

theorem lowestSetBit_eq_some (w : Nat) :
    ∀ fuel start i, lowestSetBit w start fuel = some i →
      w &&& (1 <<< i) ≠ 0 ∧ start ≤ i ∧ i < start + fuel ∧
        ∀ j, start ≤ j → j < i → w &&& (1 <<< j) = 0 := by
  intro fuel
  induction fuel with
  | zero => intro start i h; simp [lowestSetBit] at h
  | succ n ih =>
    intro start i h
    rw [lowestSetBit] at h
    by_cases hs : w &&& (1 <<< start) ≠ 0
    · rw [if_pos hs] at h
      obtain rfl : start = i := Option.some.inj h
      exact ⟨hs, Nat.le_refl _, by omega, fun j h1 h2 => absurd h1 (by omega)⟩
    · rw [if_neg hs] at h
      obtain ⟨h1, h2, h3, h4⟩ := ih (start + 1) i h
      refine ⟨h1, by omega, by omega, fun j hj1 hj2 => ?_⟩
      rcases Nat.eq_or_lt_of_le hj1 with hj | hj
      · simpa [← hj] using hs
      · exact h4 j hj hj2

theorem lowestSetBit_isSome (w : Nat) :
    ∀ fuel start j, start ≤ j → j < start + fuel → w &&& (1 <<< j) ≠ 0 →
      (lowestSetBit w start fuel).isSome = true := by
  intro fuel
  induction fuel with
  | zero => intro start j h1 h2 _; omega
  | succ n ih =>
    intro start j h1 h2 h3
    rw [lowestSetBit]
    by_cases hs : w &&& (1 <<< start) ≠ 0
    · rw [if_pos hs]; rfl
    · rw [if_neg hs]
      have hj : start + 1 ≤ j := by
        rcases Nat.eq_or_lt_of_le h1 with h | h
        · exact absurd (by simpa [← h] using h3) hs
        · omega
      exact ih (start + 1) j hj (by omega) h3

/-- The bit test the word scan performs agrees with `Nat.testBit`. -/
theorem and_one_shiftLeft_ne_zero (w b : Nat) :
    w &&& (1 <<< b) ≠ 0 ↔ w.testBit b = true := by
  rw [Nat.one_shiftLeft]
  constructor
  · intro h
    by_contra hb
    rw [Bool.not_eq_true] at hb
    apply h
    apply Nat.eq_of_testBit_eq
    intro i
    rw [Nat.testBit_and, Nat.zero_testBit]
    by_cases hib : i = b
    · subst hib; simp [hb]
    · simp [Nat.testBit_two_pow_of_ne (fun h => hib h.symm)]
  · intro h hz
    have := congrArg (fun n => n.testBit b) hz
    simp [Nat.testBit_and, h, Nat.testBit_two_pow_self, Nat.zero_testBit] at this

/-- Bits of the mask `invert (1 << b)` below the 32-bit width. -/
theorem testBit_invert_shift (b j : Nat) (hj : j < 32) :
    (invert (1 <<< b)).testBit j = !(decide (b = j)) := by
  rw [invert, Nat.one_shiftLeft, Nat.testBit_xor]
  have h1 : negativeone = 2 ^ 32 - 1 := by decide
  rw [h1, Nat.testBit_two_pow_sub_one, Nat.testBit_two_pow]
  simp [hj]

/-- Clearing bit `b` of a word: effect on every bit position below 32. -/
theorem testBit_clear_bit (w b j : Nat) (hj : j < 32) :
    (w &&& invert (1 <<< b)).testBit j = if j = b then false else w.testBit j := by
  rw [Nat.testBit_and, testBit_invert_shift b j hj]
  by_cases h : j = b
  · simp [h]
  · have hb : b ≠ j := fun hb => h hb.symm
    simp [h, hb]

/-- `MemoryEditFreemap` touches exactly the bit of frame `p`: frame `q`'s
bit becomes `val` when `q = p` and is unchanged otherwise (for `val ≤ 1`,
the only values the source passes). -/
theorem frameFree_editFreemap (s : FrameState) (p val q : Nat) (hv : val ≤ 1) :
    frameFree (MemoryEditFreemap s p val) q
      = if q = p then decide (val = 1) else frameFree s q := by
  have hq32 : q % 32 < 32 := Nat.mod_lt _ (by omega)
  simp only [frameFree, MemoryEditFreemap]
  by_cases hw : q / 32 = p / 32
  · rw [hw, if_pos rfl, Nat.testBit_or, testBit_clear_bit _ _ _ hq32]
    by_cases hqp : q = p
    · subst hqp
      rw [if_pos rfl, if_pos rfl, Nat.testBit_shiftLeft]
      interval_cases val <;> simp
    · have hbits : q % 32 ≠ p % 32 := by omega
      rw [if_neg hbits, if_neg hqp]
      have hsh : (val <<< (p % 32)).testBit (q % 32) = false := by
        rw [Nat.testBit_shiftLeft]
        by_cases hord : p % 32 ≤ q % 32
        · have hlt : val < 2 ^ (q % 32 - p % 32) := by
            have h1 : 1 ≤ q % 32 - p % 32 := by omega
            calc val ≤ 1 := hv
            _ < 2 ^ 1 := by norm_num
            _ ≤ 2 ^ (q % 32 - p % 32) := Nat.pow_le_pow_right (by norm_num) h1
          simp [Nat.testBit_lt_two_pow hlt]
        · simp [hord]
      rw [hsh, Bool.or_false]
  · have hqp : q ≠ p := fun h => hw (by rw [h])
    rw [if_neg hw, if_neg hqp]

/-- Full characterization of a successful `MemoryAllocPage` call, shared by
the one-bit-effect theorem and the trace-invariant development. -/
theorem allocPage_success_spec (s : FrameState) (p : Nat) (s' : FrameState)
    (hs : MemoryAllocPage s = some ((p : Int), s')) :
    frameFree s p = true ∧ frameFree s' p = false ∧
      (∀ q, q ≠ p → frameFree s' q = frameFree s q) ∧
      (∀ k, k ≠ p / 32 → s'.freemap k = s.freemap k) ∧
      s'.nfreepages = s.nfreepages - 1 ∧
      s'.freemap (p / 32) = s.freemap (p / 32) &&& invert (1 <<< (p % 32)) ∧
      s'.freemapmax = s.freemapmax ∧ s'.pagestart = s.pagestart := by
  by_cases h0 : s.nfreepages = 0
  · unfold MemoryAllocPage at hs
    rw [if_pos h0] at hs
    have := congrArg Prod.fst (Option.some.inj hs)
    rw [MEM_FAIL] at this
    omega
  · unfold MemoryAllocPage at hs
    rw [if_neg h0] at hs
    rcases hfind : lowestNonzeroWord s.freemap 0 s.freemapmax with _ | index <;>
      rw [hfind] at hs
    · simp at hs
    rcases hbit : lowestSetBit (s.freemap index) 0 32 with _ | bit
    · simp [hbit] at hs
    simp only [hbit] at hs
    obtain ⟨hbne, -, hbitlt, -⟩ := lowestSetBit_eq_some _ _ _ _ hbit
    have hpair := Option.some.inj hs
    have hp : index * 32 + bit = p := by
      have h1 := congrArg Prod.fst hpair
      simp only at h1
      exact_mod_cast h1
    have hstate := congrArg Prod.snd hpair
    simp only at hstate
    subst hstate
    have hdiv : p / 32 = index := by omega
    have hmod : p % 32 = bit := by omega
    have htb : (s.freemap index).testBit bit = true :=
      (and_one_shiftLeft_ne_zero _ _).mp hbne
    refine ⟨?_, ?_, ?_, ?_, rfl, ?_, rfl, rfl⟩
    · rw [frameFree, hdiv, hmod]; exact htb
    · show (if p / 32 = index then s.freemap index &&& invert (1 <<< bit)
        else s.freemap (p / 32)).testBit (p % 32) = false
      rw [if_pos hdiv, hmod, testBit_clear_bit _ _ _ (by omega)]
      simp
    · intro q hq
      show (if q / 32 = index then s.freemap index &&& invert (1 <<< bit)
        else s.freemap (q / 32)).testBit (q % 32) = frameFree s q
      by_cases hqw : q / 32 = index
      · rw [if_pos hqw, testBit_clear_bit _ _ _ (Nat.mod_lt _ (by omega))]
        have hqb : q % 32 ≠ bit := by omega
        rw [if_neg hqb, frameFree, hqw]
      · rw [if_neg hqw, frameFree]
    · intro k hk
      show (if k = index then s.freemap index &&& invert (1 <<< bit) else s.freemap k)
        = s.freemap k
      rw [if_neg (by omega)]
    · show (if p / 32 = index then s.freemap index &&& invert (1 <<< bit)
        else s.freemap (p / 32)) = s.freemap (p / 32) &&& invert (1 <<< (p % 32))
      rw [if_pos hdiv, hdiv, hmod]

/-- C8: a successful `MemoryAllocPage` clears exactly the returned frame's
bit — set before the call, clear after — leaves every other frame's bit and
every other bitmap word unchanged, and decrements the free counter. -/
theorem allocPage_changes_exactly_one_bit (s : FrameState) (p : Nat) (s' : FrameState)
    (hs : MemoryAllocPage s = some ((p : Int), s')) :
    frameFree s p = true ∧ frameFree s' p = false ∧
      (∀ q, q ≠ p → frameFree s' q = frameFree s q) ∧
      (∀ k, k ≠ p / 32 → s'.freemap k = s.freemap k) ∧
      s'.nfreepages = s.nfreepages - 1 := by
  obtain ⟨h1, h2, h3, h4, h5, -, -, -⟩ := allocPage_success_spec s p s' hs
  exact ⟨h1, h2, h3, h4, h5⟩

/-- C6: on a consistent bitmap state (free counter nonzero exactly when a
free frame exists; words genuinely 32-bit; no stray bits beyond
`freemapmax`), allocation succeeds and returns the lowest-indexed free
frame; with the free counter at zero it returns `MEM_FAIL` with the state —
bitmap, counter and all — returned unchanged.  `MemoryAllocPage` is a pure
function of the state, so the returned frame is determined by the bitmap
state. -/
theorem allocPage_exhaustion_and_lowest_free (s : FrameState)
    (hw : ∀ k, s.freemap k < 2 ^ 32)
    (hz : ∀ k, s.freemapmax ≤ k → s.freemap k = 0) :
    (s.nfreepages = 0 → MemoryAllocPage s = some (MEM_FAIL, s)) ∧
      (s.nfreepages ≠ 0 → ∀ f0, frameFree s f0 = true →
        ∃ (p : Nat) (s' : FrameState),
          MemoryAllocPage s = some ((p : Int), s') ∧ frameFree s p = true ∧
          ∀ q, frameFree s q = true → p ≤ q) := by
  constructor
  · intro h0
    unfold MemoryAllocPage
    rw [if_pos h0]
  · intro hn f0 hf0
    have hword0 : s.freemap (f0 / 32) ≠ 0 := by
      intro hzero
      rw [frameFree, hzero, Nat.zero_testBit] at hf0
      exact Bool.false_ne_true hf0
    have hj0 : f0 / 32 < s.freemapmax := by
      by_contra hc
      exact hword0 (hz _ (by omega))
    have hsome := lowestNonzeroWord_isSome s.freemap s.freemapmax 0 (f0 / 32)
      (Nat.zero_le _) (by omega) hword0
    obtain ⟨index, hfind⟩ := Option.isSome_iff_exists.mp hsome
    obtain ⟨hwne, -, -, hwmin⟩ := lowestNonzeroWord_eq_some _ _ _ _ hfind
    have hbit_ex : ∃ b, b < 32 ∧ (s.freemap index).testBit b = true := by
      by_contra hc
      push_neg at hc
      apply hwne
      apply Nat.eq_of_testBit_eq
      intro i
      rw [Nat.zero_testBit]
      by_cases hi : i < 32
      · exact Bool.not_eq_true _ ▸ (hc i hi)
      · exact Nat.testBit_lt_two_pow (Nat.lt_of_lt_of_le (hw index)
          (Nat.pow_le_pow_right (by norm_num) (by omega)))
    obtain ⟨b0, hb0lt, hb0⟩ := hbit_ex
    have hbsome := lowestSetBit_isSome (s.freemap index) 32 0 b0 (Nat.zero_le _)
      (by omega) ((and_one_shiftLeft_ne_zero _ _).mpr hb0)
    obtain ⟨bit, hbit⟩ := Option.isSome_iff_exists.mp hbsome
    obtain ⟨hbne, -, hbitlt, hbmin⟩ := lowestSetBit_eq_some _ _ _ _ hbit
    refine ⟨index * 32 + bit,
      { s with
        freemap := fun k =>
          if k = index then s.freemap index &&& invert (1 <<< bit) else s.freemap k
        nfreepages := s.nfreepages - 1 }, ?_, ?_, ?_⟩
    · unfold MemoryAllocPage
      rw [if_neg hn, hfind]
      simp only [hbit]
    · rw [frameFree]
      have hdiv : (index * 32 + bit) / 32 = index := by omega
      have hmod : (index * 32 + bit) % 32 = bit := by omega
      rw [hdiv, hmod]
      exact (and_one_shiftLeft_ne_zero _ _).mp hbne
    · intro q hq
      have hqword : s.freemap (q / 32) ≠ 0 := by
        intro hzero
        rw [frameFree, hzero, Nat.zero_testBit] at hq
        exact Bool.false_ne_true hq
      rcases Nat.lt_trichotomy (q / 32) index with hlt | heq | hgt
      · exact absurd (hwmin _ (Nat.zero_le _) hlt) hqword
      · have hqbit : bit ≤ q % 32 := by
          by_contra hc
          have := hbmin (q % 32) (Nat.zero_le _) (by omega)
          rw [frameFree, heq] at hq
          exact ((and_one_shiftLeft_ne_zero _ _).mpr hq) this
        omega
      · omega

/-- Witness for C6: on `smallFrames` (free frames 2 and 3) allocation
succeeds and returns frame 2, the lowest free frame. -/
theorem allocPage_exhaustion_and_lowest_free_witness :
    ∃ (p : Nat) (s' : FrameState),
      MemoryAllocPage smallFrames = some ((p : Int), s') ∧
        frameFree smallFrames p = true ∧
        ∀ q, frameFree smallFrames q = true → p ≤ q :=
  (allocPage_exhaustion_and_lowest_free smallFrames
      (fun k => by by_cases h : k = 0 <;> norm_num [smallFrames, h])
      (fun k hk => by
        have hk1 : 1 ≤ k := hk
        have h : k ≠ 0 := by omega
        simp [smallFrames, h])).2
    (by norm_num [smallFrames]) 2 (by decide)

/-- Witness for C8: allocating on `smallFrames` clears exactly frame 2's
bit. -/
theorem allocPage_changes_exactly_one_bit_witness :
    frameFree smallFrames 2 = true ∧ frameFree smallFramesAfter 2 = false ∧
      (∀ q, q ≠ 2 → frameFree smallFramesAfter q = frameFree smallFrames q) ∧
      (∀ k, k ≠ 2 / 32 → smallFramesAfter.freemap k = smallFrames.freemap k) ∧
      smallFramesAfter.nfreepages = smallFrames.nfreepages - 1 :=
  allocPage_changes_exactly_one_bit smallFrames 2 smallFramesAfter rfl

theorem editFreemap_freemap_eq (s : FrameState) (p v k : Nat) (hk : k ≠ p / 32) :
    (MemoryEditFreemap s p v).freemap k = s.freemap k := by
  show (if k = p / 32 then
      (s.freemap (p / 32) &&& invert (1 <<< (p % 32))) ||| (v <<< (p % 32))
    else s.freemap k) = s.freemap k
  rw [if_neg hk]

theorem editFreemap_word_lt (s : FrameState) (p v : Nat) (hv : v ≤ 1)
    (hw : ∀ k, s.freemap k < 2 ^ 32) :
    ∀ k, (MemoryEditFreemap s p v).freemap k < 2 ^ 32 := by
  intro k
  by_cases hk : k = p / 32
  · show (if k = p / 32 then
        (s.freemap (p / 32) &&& invert (1 <<< (p % 32))) ||| (v <<< (p % 32))
      else s.freemap k) < 2 ^ 32
    rw [if_pos hk]
    apply Nat.or_lt_two_pow
    · exact Nat.lt_of_le_of_lt Nat.and_le_left (hw _)
    · calc v <<< (p % 32) = v * 2 ^ (p % 32) := Nat.shiftLeft_eq _ _
      _ ≤ 1 * 2 ^ (p % 32) := Nat.mul_le_mul_right _ hv
      _ = 2 ^ (p % 32) := Nat.one_mul _
      _ < 2 ^ 32 := Nat.pow_lt_pow_right (by norm_num) (Nat.mod_lt _ (by omega))
  · rw [editFreemap_freemap_eq s p v k hk]
    exact hw k

theorem allocPage_exhausted (s : FrameState) (h0 : s.nfreepages = 0) :
    MemoryAllocPage s = some (MEM_FAIL, s) := by
  unfold MemoryAllocPage
  rw [if_pos h0]

theorem allocPage_not_exhausted_cases (s : FrameState) (hn : s.nfreepages ≠ 0) :
    MemoryAllocPage s = none ∨
      ∃ (p : Nat) (s' : FrameState), MemoryAllocPage s = some ((p : Int), s') := by
  unfold MemoryAllocPage
  rw [if_neg hn]
  rcases hfind : lowestNonzeroWord s.freemap 0 s.freemapmax with _ | index
  · left; rfl
  rcases hbit : lowestSetBit (s.freemap index) 0 32 with _ | bit
  · left
    simp only [hbit]
  · right
    refine ⟨index * 32 + bit,
      { s with
        freemap := fun k =>
          if k = index then s.freemap index &&& invert (1 <<< bit) else s.freemap k
        nfreepages := s.nfreepages - 1 }, ?_⟩
    simp only [hbit]

theorem initLoop_spec :
    ∀ (n start : Nat) (s : FrameState),
      (∀ k, s.freemap k < 2 ^ 32) →
      (∀ i, start ≤ i → i < start + n → i / 32 < s.freemapmax) →
      (∀ k, (initLoop s start n).freemap k < 2 ^ 32) ∧
        (initLoop s start n).freemapmax = s.freemapmax ∧
        (initLoop s start n).pagestart = s.pagestart ∧
        (∀ k, s.freemapmax ≤ k → (initLoop s start n).freemap k = s.freemap k) ∧
        (initLoop s start n).nfreepages = s.nfreepages + n ∧
        ∀ f, frameFree (initLoop s start n) f
          = (frameFree s f || decide (start ≤ f ∧ f < start + n)) := by
  intro n
  induction n with
  | zero =>
    intro start s hw _
    have h0 : initLoop s start 0 = s := rfl
    rw [h0]
    refine ⟨hw, rfl, rfl, fun k _ => rfl, by simp, fun f => ?_⟩
    have hno : ¬(start ≤ f ∧ f < start + 0) := by omega
    simp [hno]
  | succ m ih =>
    intro start s hw hbound
    have hstep : initLoop s start (m + 1)
        = initLoop (MemoryEditFreemap { s with nfreepages := s.nfreepages + 1 } start 1)
            (start + 1) m := by
      unfold initLoop
      rw [List.range'_succ]
      rfl
    have hw1 : ∀ k,
        (MemoryEditFreemap { s with nfreepages := s.nfreepages + 1 } start 1).freemap k
          < 2 ^ 32 :=
      editFreemap_word_lt _ start 1 (Nat.le_refl 1) (fun k => hw k)
    have hb1 : ∀ i, start + 1 ≤ i → i < start + 1 + m →
        i / 32 < (MemoryEditFreemap { s with nfreepages := s.nfreepages + 1 } start 1).freemapmax :=
      fun i h1 h2 => hbound i (by omega) (by omega)
    obtain ⟨ih1, ih2, ih3, ih4, ih5, ih6⟩ := ih (start + 1) _ hw1 hb1
    rw [hstep]
    have hsw : start / 32 < s.freemapmax := hbound start (Nat.le_refl _) (by omega)
    refine ⟨ih1, ih2, ih3, ?_, ?_, ?_⟩
    · intro k hk
      rw [ih4 k hk]
      exact editFreemap_freemap_eq _ start 1 k (by omega)
    · rw [ih5]
      show (s.nfreepages + 1) + (m : Int) = s.nfreepages + ((m + 1 : Nat) : Int)
      push_cast
      ring
    · intro f
      rw [ih6 f]
      have hedit := frameFree_editFreemap { s with nfreepages := s.nfreepages + 1 } start 1 f
        (Nat.le_refl 1)
      have hrec : frameFree { s with nfreepages := s.nfreepages + 1 } f = frameFree s f := rfl
      rw [hedit, hrec]
      by_cases hf : f = start
      · subst hf
        have hin : f ≤ f ∧ f < f + (m + 1) := ⟨Nat.le_refl _, by omega⟩
        simp [hin]
      · rw [if_neg hf]
        have hiff : (start + 1 ≤ f ∧ f < start + 1 + m) ↔ (start ≤ f ∧ f < start + (m + 1)) := by
          omega
        rw [decide_eq_decide.mpr hiff]

theorem init_inv (memsize lastosaddress : Nat) :
    FrameInv (memsize / MEM_PAGESIZE) (MemoryModuleInit memsize lastosaddress) ∅ := by
  set maxpage := memsize / MEM_PAGESIZE with hmp
  set start := (lastosaddress &&& 0x1FFFFC) / MEM_PAGESIZE + 1 with hst
  set s0 : FrameState :=
    { freemap := fun _ => 0
      freemapmax := (maxpage + 31) / 32
      pagestart := start
      nfreepages := 0 } with hs0def
  have heq : MemoryModuleInit memsize lastosaddress = initLoop s0 start (maxpage - start) := rfl
  obtain ⟨h1, h2, h3, h4, h5, h6⟩ := initLoop_spec (maxpage - start) start s0
    (fun k => by rw [hs0def]; norm_num)
    (fun i hi1 hi2 => by
      show i / 32 < s0.freemapmax
      rw [hs0def]
      show i / 32 < (maxpage + 31) / 32
      omega)
  have hs0free : ∀ f, frameFree s0 f = false := fun f => Nat.zero_testBit _
  rw [heq]
  refine ⟨h1, ?_, ?_, ?_, ?_, ?_⟩
  · intro k hk
    rw [h2] at hk
    rw [h4 k hk, hs0def]
  · rw [h2, hs0def]
    show maxpage ≤ 32 * ((maxpage + 31) / 32)
    omega
  · intro f hf
    rw [Bool.eq_false_iff]
    intro hcontra
    rw [h6 f, hs0free f, Bool.false_or, decide_eq_true_eq] at hcontra
    omega
  · rw [h5]
    have hfilter : (Finset.range maxpage).filter
          (fun f => frameFree (initLoop s0 start (maxpage - start)) f = true)
        = Finset.Ico start (start + (maxpage - start)) := by
      ext q
      simp only [Finset.mem_filter, Finset.mem_range, Finset.mem_Ico]
      rw [h6 q, hs0free q, Bool.false_or, decide_eq_true_eq]
      omega
    rw [freeCount, hfilter, Nat.card_Ico, hs0def]
    show (0 : Int) + ((maxpage - start : Nat) : Int)
      = ((start + (maxpage - start) - start : Nat) : Int)
    omega
  · intro p hp
    exact absurd hp (Finset.not_mem_empty p)

theorem step_preserves (maxpage : Nat) (s : FrameState) (A : Finset Nat) (op : FrameOp)
    (hInv : FrameInv maxpage s A) (hop : legalOp A op = true) :
    FrameInv maxpage (stepState s op) (stepOutstanding s A op) := by
  obtain ⟨hw, hz, hmx, hbig, hcnt, hA⟩ := hInv
  cases op with
  | alloc =>
    rcases halloc : MemoryAllocPage s with _ | gp
    · have hstep : stepState s FrameOp.alloc = s := by simp only [stepState, halloc]
      have hout : stepOutstanding s A FrameOp.alloc = A := by
        simp only [stepOutstanding, halloc]
      rw [hstep, hout]
      exact ⟨hw, hz, hmx, hbig, hcnt, hA⟩
    · obtain ⟨g, s1⟩ := gp
      by_cases h0 : s.nfreepages = 0
      · have hex := allocPage_exhausted s h0
        rw [halloc] at hex
        have hpair := Option.some.inj hex
        have hg : g = MEM_FAIL := congrArg Prod.fst hpair
        have hs1 : s1 = s := congrArg Prod.snd hpair
        have hstep : stepState s FrameOp.alloc = s := by
          simp only [stepState, halloc, hs1]
        have hout : stepOutstanding s A FrameOp.alloc = A := by
          simp only [stepOutstanding, halloc]
          rw [hg, if_neg (by norm_num [MEM_FAIL])]
        rw [hstep, hout]
        exact ⟨hw, hz, hmx, hbig, hcnt, hA⟩
      · rcases allocPage_not_exhausted_cases s h0 with hnone | ⟨p, s2, hps⟩
        · rw [halloc] at hnone
          exact absurd hnone (by simp)
        · rw [halloc] at hps
          have hpair := Option.some.inj hps
          have hg : g = (p : Int) := congrArg Prod.fst hpair
          have hs2 : s1 = s2 := congrArg Prod.snd hpair
          subst hs2
          obtain ⟨hfp, hfp', hother, hwords, hnf, hword, hfm, -⟩ :=
            allocPage_success_spec s p s1 (by rw [halloc, hg])
          have hstep : stepState s FrameOp.alloc = s1 := by simp only [stepState, halloc]
          have hout : stepOutstanding s A FrameOp.alloc = insert p A := by
            simp only [stepOutstanding, halloc]
            rw [hg, if_pos (Int.natCast_nonneg p)]
            norm_num
          rw [hstep, hout]
          have hpmax : p < maxpage := by
            by_contra hc
            have hb := hbig p (by omega)
            rw [hb] at hfp
            exact Bool.false_ne_true hfp
          have hmem : p ∈ (Finset.range maxpage).filter (fun f => frameFree s f = true) :=
            Finset.mem_filter.mpr ⟨Finset.mem_range.mpr hpmax, hfp⟩
          refine ⟨?_, ?_, by rw [hfm]; exact hmx, ?_, ?_, ?_⟩
          · intro k
            by_cases hk : k = p / 32
            · rw [hk, hword]
              exact Nat.lt_of_le_of_lt Nat.and_le_left (hw _)
            · rw [hwords k hk]
              exact hw k
          · intro k hk
            rw [hfm] at hk
            have hkp : k ≠ p / 32 := by
              intro h
              have h0' := hz k hk
              rw [h] at h0'
              rw [frameFree, h0', Nat.zero_testBit] at hfp
              exact Bool.false_ne_true hfp
            rw [hwords k hkp]
            exact hz k hk
          · intro f hf
            have hfp2 : f ≠ p := by omega
            rw [hother f hfp2]
            exact hbig f hf
          · have hfilter : (Finset.range maxpage).filter (fun f => frameFree s1 f = true)
                = ((Finset.range maxpage).filter (fun f => frameFree s f = true)).erase p := by
              ext q
              simp only [Finset.mem_filter, Finset.mem_erase, Finset.mem_range]
              constructor
              · rintro ⟨hq1, hq2⟩
                have hqp : q ≠ p := by
                  intro h
                  rw [h, hfp'] at hq2
                  exact Bool.false_ne_true hq2
                exact ⟨hqp, hq1, by rw [← hother q hqp]; exact hq2⟩
              · rintro ⟨hqp, hq1, hq2⟩
                exact ⟨hq1, by rw [hother q hqp]; exact hq2⟩
            have hcard : freeCount maxpage s1 = freeCount maxpage s - 1 := by
              rw [freeCount, hfilter, Finset.card_erase_of_mem hmem]
              rfl
            have hone : 0 < freeCount maxpage s := Finset.card_pos.mpr ⟨p, hmem⟩
            rw [hnf, hcnt, hcard]
            omega
          · intro q hq
            rcases Finset.mem_insert.mp hq with rfl | hqA
            · exact ⟨hpmax, hfp'⟩
            · obtain ⟨hq1, hq2⟩ := hA q hqA
              refine ⟨hq1, ?_⟩
              have hqp : q ≠ p := by
                intro h
                rw [h] at hq2
                rw [hq2] at hfp
                exact Bool.false_ne_true hfp
              rw [hother q hqp]
              exact hq2
  | free p =>
    have hpA : p ∈ A := by simpa [legalOp] using hop
    obtain ⟨hpmax, hpfree⟩ := hA p hpA
    have hstep : stepState s (FrameOp.free p) = MemoryFreePage s p := rfl
    have hout : stepOutstanding s A (FrameOp.free p) = A.erase p := rfl
    rw [hstep, hout]
    have hmapf : ∀ f, frameFree (MemoryFreePage s p) f
        = if f = p then true else frameFree s f := by
      intro f
      have hrfl : frameFree (MemoryFreePage s p) f = frameFree (MemoryEditFreemap s p 1) f := rfl
      rw [hrfl, frameFree_editFreemap s p 1 f (Nat.le_refl 1)]
      by_cases hf : f = p <;> simp [hf]
    refine ⟨?_, ?_, hmx, ?_, ?_, ?_⟩
    · intro k
      have hrfl : (MemoryFreePage s p).freemap k = (MemoryEditFreemap s p 1).freemap k := rfl
      rw [hrfl]
      exact editFreemap_word_lt s p 1 (Nat.le_refl 1) hw k
    · intro k hk
      have hk' : s.freemapmax ≤ k := hk
      have hpw : p / 32 < s.freemapmax := by omega
      have hkp : k ≠ p / 32 := by omega
      have hrfl : (MemoryFreePage s p).freemap k = (MemoryEditFreemap s p 1).freemap k := rfl
      rw [hrfl, editFreemap_freemap_eq s p 1 k hkp]
      exact hz k hk'
    · intro f hf
      rw [hmapf f, if_neg (by omega)]
      exact hbig f hf
    · have hnotmem : p ∉ (Finset.range maxpage).filter (fun f => frameFree s f = true) := by
        intro hmem
        have h2' := (Finset.mem_filter.mp hmem).2
        rw [hpfree] at h2'
        exact Bool.false_ne_true h2'
      have hfilter : (Finset.range maxpage).filter
            (fun f => frameFree (MemoryFreePage s p) f = true)
          = insert p ((Finset.range maxpage).filter (fun f => frameFree s f = true)) := by
        ext q
        simp only [Finset.mem_filter, Finset.mem_insert, Finset.mem_range]
        rw [hmapf q]
        by_cases hq : q = p
        · simp [hq, hpmax]
        · simp [hq]
      have hcard : freeCount maxpage (MemoryFreePage s p) = freeCount maxpage s + 1 := by
        rw [freeCount, hfilter, Finset.card_insert_of_not_mem hnotmem]
        rfl
      have hnf : (MemoryFreePage s p).nfreepages = s.nfreepages + 1 := rfl
      rw [hnf, hcnt, hcard]
      push_cast
      ring
    · intro q hq
      obtain ⟨hqp, hqA⟩ := Finset.mem_erase.mp hq
      obtain ⟨hqm, hqf⟩ := hA q hqA
      refine ⟨hqm, ?_⟩
      rw [hmapf q, if_neg hqp]
      exact hqf

theorem runTrace_inv (maxpage : Nat) :
    ∀ (ops : List FrameOp) (s : FrameState) (A : Finset Nat),
      FrameInv maxpage s A → legalTrace s A ops = true →
      FrameInv maxpage (runTrace s A ops).1 (runTrace s A ops).2 := by
  intro ops
  induction ops with
  | nil => intro s A hInv _; exact hInv
  | cons op ops ih =>
    intro s A hInv hleg
    simp only [legalTrace, Bool.and_eq_true] at hleg
    obtain ⟨h1, h2⟩ := hleg
    exact ih _ _ (step_preserves maxpage s A op hInv h1) h2

/-- C7: frame conservation.  Starting from the initialized allocator state,
along any sequence of `MemoryAllocPage` / `MemoryFreePage` calls in which
every freed frame is an outstanding allocated one (no double-free), the
recorded free counter plus the number of usable frames currently marked
allocated in the bitmap equals the total number of usable frames
`maxpage = memsize / MEM_PAGESIZE` — after every call, since the theorem
holds for every such sequence and hence every prefix.  The memory-size bound
keeps `maxpage` within the 512 frames the 16-word bitmap of the source can
describe. -/
theorem frame_conservation (memsize lastosaddress : Nat) (ops : List FrameOp)
    (hmem : memsize ≤ 2097152)
    (hlegal : legalTrace (MemoryModuleInit memsize lastosaddress) ∅ ops = true) :
    ((runTrace (MemoryModuleInit memsize lastosaddress) ∅ ops).1).nfreepages
        + (allocatedCount (memsize / MEM_PAGESIZE)
            (runTrace (MemoryModuleInit memsize lastosaddress) ∅ ops).1 : Int)
      = ((memsize / MEM_PAGESIZE : Nat) : Int) := by
  obtain ⟨-, -, -, -, hcnt, -⟩ := runTrace_inv (memsize / MEM_PAGESIZE) ops _ _
    (init_inv memsize lastosaddress) hlegal
  rw [hcnt]
  have hsum : freeCount (memsize / MEM_PAGESIZE)
        (runTrace (MemoryModuleInit memsize lastosaddress) ∅ ops).1
      + allocatedCount (memsize / MEM_PAGESIZE)
          (runTrace (MemoryModuleInit memsize lastosaddress) ∅ ops).1
      = memsize / MEM_PAGESIZE := by
    rw [freeCount, allocatedCount, Finset.filter_card_add_filter_neg_card_eq_card,
      Finset.card_range]
  omega

theorem hset_self (h : Heap) (i : Nat) (x : Node) : hset h i x i = x := by
  rw [hset, if_pos rfl]

theorem hset_other (h : Heap) (i : Nat) (x : Node) (k : Nat) (hk : k ≠ i) :
    hset h i x k = h k := by
  rw [hset, if_neg hk]

/-- A successful `MemoryNodeSearch` marks in use, and returns the address
of, a node whose size satisfies the allocation predicate
`memsize <= size && memsize > size / 2`. -/
theorem nodeSearch_success :
    ∀ (fuel : Nat) (h : Heap) (oi : Option Nat) (m a : Nat) (h' : Heap),
      MemoryNodeSearch fuel h oi m = (some a, h') →
      ∃ j, (h' j).inuse = 1 ∧ (h' j).address = a ∧
        m ≤ (h' j).size ∧ (h' j).size / 2 < m := by
  intro fuel
  induction fuel with
  | zero =>
    intro h oi m a h' hs
    cases oi with
    | none => simp [MemoryNodeSearch] at hs
    | some i => simp [MemoryNodeSearch] at hs
  | succ n ih =>
    intro h oi m a h' hs
    cases oi with
    | none => simp [MemoryNodeSearch] at hs
    | some i =>
      simp only [MemoryNodeSearch] at hs
      by_cases hleaf : (h i).left = none ∧ (h i).inuse = 0
      · rw [if_pos hleaf] at hs
        by_cases hpred : m ≤ (h i).size ∧ (h i).size / 2 < m
        · rw [if_pos hpred] at hs
          have ha : (h i).address = a := Option.some.inj (congrArg Prod.fst hs)
          have hh : hset h i { h i with inuse := 1 } = h' := congrArg Prod.snd hs
          refine ⟨i, ?_, ?_, ?_, ?_⟩
          all_goals rw [← hh, hset_self]
          · simpa using ha
          · simpa using hpred.1
          · simpa using hpred.2
        · rw [if_neg hpred] at hs
          exact absurd (congrArg Prod.fst hs) (by simp)
      · rw [if_neg hleaf] at hs
        rcases hrec : MemoryNodeSearch n h (h i).left m with ⟨_ | b, h1⟩
        · simp only [hrec] at hs
          exact ih h1 (h i).right m a h' hs
        · simp only [hrec] at hs
          have hb : b = a := Option.some.inj (congrArg Prod.fst hs)
          have hh1 : h1 = h' := congrArg Prod.snd hs
          subst hb hh1
          exact ih h (h i).left m b h1 hrec

/-- A successful `MemorySplitNode` likewise allocates a node satisfying the
allocation predicate, whether it was found directly or just created by
splitting. -/
theorem splitNode_success :
    ∀ (fuel : Nat) (h : Heap) (oi : Option Nat) (m a : Nat) (h' : Heap),
      MemorySplitNode fuel h oi m = (some a, h') →
      ∃ j, (h' j).inuse = 1 ∧ (h' j).address = a ∧
        m ≤ (h' j).size ∧ (h' j).size / 2 < m := by
  intro fuel
  induction fuel with
  | zero =>
    intro h oi m a h' hs
    cases oi with
    | none => simp [MemorySplitNode] at hs
    | some i => simp [MemorySplitNode] at hs
  | succ n ih =>
    intro h oi m a h' hs
    cases oi with
    | none => simp [MemorySplitNode] at hs
    | some i =>
      simp only [MemorySplitNode] at hs
      by_cases hleaf : (h i).left = none ∧ (h i).inuse = 0
      · rw [if_pos hleaf] at hs
        by_cases hpred : m ≤ (h i).size ∧ (h i).size / 2 < m
        · rw [if_pos hpred] at hs
          have ha : (h i).address = a := Option.some.inj (congrArg Prod.fst hs)
          have hh : hset h i { h i with inuse := 1 } = h' := congrArg Prod.snd hs
          refine ⟨i, ?_, ?_, ?_, ?_⟩
          all_goals rw [← hh, hset_self]
          · simpa using ha
          · simpa using hpred.1
          · simpa using hpred.2
        · rw [if_neg hpred] at hs
          by_cases hhalf : (h i).size / 2 < m
          · rw [if_pos hhalf] at hs
            exact absurd (congrArg Prod.fst hs) (by simp)
          · rw [if_neg hhalf] at hs
            by_cases hord : (h i).order = 0
            · rw [if_pos hord] at hs
              exact absurd (congrArg Prod.fst hs) (by simp)
            · rw [if_neg hord] at hs
              rcases hrec : MemorySplitNode n (splitChildren h i)
                  ((splitChildren h i) i).left m with ⟨_ | b, h4⟩
              · simp only [hrec] at hs
                exact ih h4 ((splitChildren h i) i).right m a h' hs
              · simp only [hrec] at hs
                have hb : b = a := Option.some.inj (congrArg Prod.fst hs)
                have hh4 : h4 = h' := congrArg Prod.snd hs
                subst hb hh4
                exact ih (splitChildren h i) ((splitChildren h i) i).left m b h4 hrec
      · rw [if_neg hleaf] at hs
        rcases hrec : MemorySplitNode n h (h i).left m with ⟨_ | b, h1⟩
        · simp only [hrec] at hs
          exact ih h1 (h i).right m a h' hs
        · simp only [hrec] at hs
          have hb : b = a := Option.some.inj (congrArg Prod.fst hs)
          have hh1 : h1 = h' := congrArg Prod.snd hs
          subst hb hh1
          exact ih h (h i).left m b h1 hrec

/-- Shared characterization of a successful `malloc`: the request was in
range, and the returned address tags the address of a node now marked in use
whose size satisfies the allocation predicate. -/
theorem malloc_success_spec (h : Heap) (m : Int) (va : Nat) (h' : Heap)
    (hs : malloc h m = (some va, h')) :
    0 < m ∧ m ≤ (MEM_PAGESIZE : Int) ∧
      ∃ j, (h' j).inuse = 1 ∧ va = MEM_PAGESIZE * 4 ||| (h' j).address ∧
        m.toNat ≤ (h' j).size ∧ (h' j).size / 2 < m.toNat := by
  unfold malloc at hs
  by_cases hrej : m ≤ 0 ∨ (MEM_PAGESIZE : Int) < m
  · rw [if_pos hrej] at hs
    exact absurd (congrArg Prod.fst hs) (by simp)
  · push_neg at hrej
    refine ⟨by omega, hrej.2, ?_⟩
    rw [if_neg (by push_neg; exact hrej)] at hs
    rcases hsear : MemoryNodeSearch MEM_NUM_NODES h (some 1) m.toNat with ⟨_ | b, h1⟩
    · simp only [hsear] at hs
      rcases hsplit : MemorySplitNode MEM_NUM_NODES h1 (some 1) m.toNat with ⟨_ | c, h2⟩
      · simp only [hsplit] at hs
        exact absurd (congrArg Prod.fst hs) (by simp)
      · simp only [hsplit] at hs
        have hva : MEM_PAGESIZE * 4 ||| c = va := Option.some.inj (congrArg Prod.fst hs)
        have hh : h2 = h' := congrArg Prod.snd hs
        subst hh
        obtain ⟨j, hj1, hj2, hj3, hj4⟩ := splitNode_success _ _ _ _ _ _ hsplit
        exact ⟨j, hj1, by rw [← hva, hj2], hj3, hj4⟩
    · simp only [hsear] at hs
      have hva : MEM_PAGESIZE * 4 ||| b = va := Option.some.inj (congrArg Prod.fst hs)
      have hh : h1 = h' := congrArg Prod.snd hs
      subst hh
      obtain ⟨j, hj1, hj2, hj3, hj4⟩ := nodeSearch_success _ _ _ _ _ _ hsear
      exact ⟨j, hj1, by rw [← hva, hj2], hj3, hj4⟩

/-- C4: bounded fragmentation.  A request `m` with `m <= 0` or
`m > MEM_PAGESIZE` is rejected by `malloc` with the heap untouched; any
successful `malloc` returns the heap-page-tagged address of a node, now
marked in use, whose size `s` satisfies `m ≤ s < 2*m` — whether the node was
found by `MemoryNodeSearch` or produced by `MemorySplitNode`. -/
theorem malloc_bounded_fragmentation (h : Heap) (m : Int) :
    ((m ≤ 0 ∨ (MEM_PAGESIZE : Int) < m) → malloc h m = (none, h)) ∧
      (∀ (va : Nat) (h' : Heap), malloc h m = (some va, h') →
        ∃ j, (h' j).inuse = 1 ∧ va = MEM_PAGESIZE * 4 ||| (h' j).address ∧
          m.toNat ≤ (h' j).size ∧ (h' j).size < 2 * m.toNat) := by
  constructor
  · intro hrej
    unfold malloc
    rw [if_pos hrej]
  · intro va h' hs
    obtain ⟨-, -, j, hj1, hj2, hj3, hj4⟩ := malloc_success_spec h m va h' hs
    exact ⟨j, hj1, hj2, hj3, by omega⟩

/-- `splitChildren` keeps every node's block inside the heap region: both
children of node `i` lie within node `i`'s block. -/
theorem splitChildren_bound (h : Heap) (i : Nat)
    (hinv : ∀ k, (h k).address + (h k).size ≤ MEM_PAGESIZE) :
    ∀ k, ((splitChildren h i) k).address + ((splitChildren h i) k).size ≤ MEM_PAGESIZE := by
  intro k
  have hi := hinv i
  have hk := hinv k
  have hli := hinv (2 * (h i).index)
  have hri := hinv (2 * (h i).index + 1)
  unfold splitChildren
  simp only [hset]
  split_ifs <;> simp <;> omega

/-- `MemoryNodeSearch` keeps every node's block inside the heap region. -/
theorem nodeSearch_bound :
    ∀ (fuel : Nat) (h : Heap) (oi : Option Nat) (m : Nat) (r : Option Nat) (h' : Heap),
      MemoryNodeSearch fuel h oi m = (r, h') →
      (∀ k, (h k).address + (h k).size ≤ MEM_PAGESIZE) →
      ∀ k, (h' k).address + (h' k).size ≤ MEM_PAGESIZE := by
  intro fuel
  induction fuel with
  | zero =>
    intro h oi m r h' hs hinv
    cases oi with
    | none =>
      have hh : h = h' := congrArg Prod.snd hs
      rw [← hh]; exact hinv
    | some i =>
      have hh : h = h' := congrArg Prod.snd hs
      rw [← hh]; exact hinv
  | succ n ih =>
    intro h oi m r h' hs hinv
    cases oi with
    | none =>
      have hh : h = h' := congrArg Prod.snd hs
      rw [← hh]; exact hinv
    | some i =>
      simp only [MemoryNodeSearch] at hs
      by_cases hleaf : (h i).left = none ∧ (h i).inuse = 0
      · rw [if_pos hleaf] at hs
        by_cases hpred : m ≤ (h i).size ∧ (h i).size / 2 < m
        · rw [if_pos hpred] at hs
          have hh : hset h i { h i with inuse := 1 } = h' := congrArg Prod.snd hs
          intro k
          rw [← hh]
          by_cases hk : k = i
          · subst hk
            rw [hset_self]
            simpa using hinv k
          · rw [hset_other _ _ _ _ hk]
            exact hinv k
        · rw [if_neg hpred] at hs
          have hh : h = h' := congrArg Prod.snd hs
          rw [← hh]; exact hinv
      · rw [if_neg hleaf] at hs
        rcases hrec : MemoryNodeSearch n h (h i).left m with ⟨_ | b, h1⟩
        · simp only [hrec] at hs
          exact ih h1 (h i).right m r h' hs (ih h (h i).left m none h1 hrec hinv)
        · simp only [hrec] at hs
          have hh1 : h1 = h' := congrArg Prod.snd hs
          rw [← hh1]
          exact ih h (h i).left m (some b) h1 hrec hinv

/-- `MemorySplitNode` keeps every node's block inside the heap region. -/
theorem splitNode_bound :
    ∀ (fuel : Nat) (h : Heap) (oi : Option Nat) (m : Nat) (r : Option Nat) (h' : Heap),
      MemorySplitNode fuel h oi m = (r, h') →
      (∀ k, (h k).address + (h k).size ≤ MEM_PAGESIZE) →
      ∀ k, (h' k).address + (h' k).size ≤ MEM_PAGESIZE := by
  intro fuel
  induction fuel with
  | zero =>
    intro h oi m r h' hs hinv
    cases oi with
    | none =>
      have hh : h = h' := congrArg Prod.snd hs
      rw [← hh]; exact hinv
    | some i =>
      have hh : h = h' := congrArg Prod.snd hs
      rw [← hh]; exact hinv
  | succ n ih =>
    intro h oi m r h' hs hinv
    cases oi with
    | none =>
      have hh : h = h' := congrArg Prod.snd hs
      rw [← hh]; exact hinv
    | some i =>
      simp only [MemorySplitNode] at hs
      by_cases hleaf : (h i).left = none ∧ (h i).inuse = 0
      · rw [if_pos hleaf] at hs
        by_cases hpred : m ≤ (h i).size ∧ (h i).size / 2 < m
        · rw [if_pos hpred] at hs
          have hh : hset h i { h i with inuse := 1 } = h' := congrArg Prod.snd hs
          intro k
          rw [← hh]
          by_cases hk : k = i
          · subst hk
            rw [hset_self]
            simpa using hinv k
          · rw [hset_other _ _ _ _ hk]
            exact hinv k
        · rw [if_neg hpred] at hs
          by_cases hhalf : (h i).size / 2 < m
          · rw [if_pos hhalf] at hs
            have hh : h = h' := congrArg Prod.snd hs
            rw [← hh]; exact hinv
          · rw [if_neg hhalf] at hs
            by_cases hord : (h i).order = 0
            · rw [if_pos hord] at hs
              have hh : h = h' := congrArg Prod.snd hs
              rw [← hh]; exact hinv
            · rw [if_neg hord] at hs
              have hsc := splitChildren_bound h i hinv
              rcases hrec : MemorySplitNode n (splitChildren h i)
                  ((splitChildren h i) i).left m with ⟨_ | b, h4⟩
              · simp only [hrec] at hs
                exact ih h4 ((splitChildren h i) i).right m r h' hs
                  (ih (splitChildren h i) ((splitChildren h i) i).left m none h4 hrec hsc)
              · simp only [hrec] at hs
                have hh4 : h4 = h' := congrArg Prod.snd hs
                rw [← hh4]
                exact ih (splitChildren h i) ((splitChildren h i) i).left m (some b) h4 hrec hsc
      · rw [if_neg hleaf] at hs
        rcases hrec : MemorySplitNode n h (h i).left m with ⟨_ | b, h1⟩
        · simp only [hrec] at hs
          exact ih h1 (h i).right m r h' hs (ih h (h i).left m none h1 hrec hinv)
        · simp only [hrec] at hs
          have hh1 : h1 = h' := congrArg Prod.snd hs
          rw [← hh1]
          exact ih h (h i).left m (some b) h1 hrec hinv

/-- Tagging a heap-relative address below the page size with the heap-page
selector is plain addition. -/
theorem lor_heap_page (b : Nat) (hb : b < 4096) : 16384 ||| b = 16384 + b := by
  have h14 : (16384 : Nat) = 2 ^ 14 := by norm_num
  apply Nat.eq_of_testBit_eq
  intro j
  rw [Nat.testBit_or, h14]
  rcases Nat.lt_trichotomy j 14 with hj | hj | hj
  · rw [Nat.testBit_two_pow_add_gt hj, Nat.testBit_two_pow_of_ne (by omega)]
    simp
  · subst hj
    rw [Nat.testBit_two_pow_add_eq, Nat.testBit_two_pow_self]
    have hb14 : b.testBit 14 = false := Nat.testBit_lt_two_pow (by norm_num; omega)
    simp [hb14]
  · have h2j : (2 : Nat) ^ 14 ≤ 2 ^ j := Nat.pow_le_pow_right (by norm_num) (by omega)
    have hbj : b.testBit j = false := Nat.testBit_lt_two_pow (by omega)
    have hsum : 2 ^ 14 + b < 2 ^ j := by
      have h15 : (2 : Nat) ^ 15 ≤ 2 ^ j := Nat.pow_le_pow_right (by norm_num) (by omega)
      have : (2 : Nat) ^ 14 + b < 2 ^ 15 := by norm_num; omega
      omega
    rw [Nat.testBit_lt_two_pow hsum, Nat.testBit_two_pow_of_ne (by omega), hbj]
    simp

/-- C10: every non-failure address returned by `malloc` on a heap whose
nodes all lie within the one-page region is inside the fixed heap page
`[4*MEM_PAGESIZE, 5*MEM_PAGESIZE)`, is not `NULL`, and in particular never
satisfies the rejection guard that `mfree` applies to its argument. -/
theorem malloc_address_in_heap_page (h : Heap) (m : Int) (va : Nat) (h' : Heap)
    (hinv : ∀ k, (h k).address + (h k).size ≤ MEM_PAGESIZE)
    (hs : malloc h m = (some va, h')) :
    4 * MEM_PAGESIZE ≤ va ∧ va < 5 * MEM_PAGESIZE ∧ (va : Int) ≠ 0 ∧
      ¬(5 * (MEM_PAGESIZE : Int) ≤ (va : Int) ∨ (va : Int) < 4 * (MEM_PAGESIZE : Int)) := by
  obtain ⟨hm, hle, j, -, hva, hsz, -⟩ := malloc_success_spec h m va h' hs
  have hbound : ∀ k, (h' k).address + (h' k).size ≤ MEM_PAGESIZE := by
    revert hs
    unfold malloc
    rw [if_neg (by omega)]
    rcases hsear : MemoryNodeSearch MEM_NUM_NODES h (some 1) m.toNat with ⟨_ | b, h1⟩
    · simp only [hsear]
      rcases hsplit : MemorySplitNode MEM_NUM_NODES h1 (some 1) m.toNat with ⟨_ | c, h2⟩
      · simp only [hsplit]
        intro hcontra
        exact absurd (congrArg Prod.fst hcontra) (by simp)
      · simp only [hsplit]
        intro hpair
        have hh : h2 = h' := congrArg Prod.snd hpair
        rw [← hh]
        exact splitNode_bound _ _ _ _ _ _ hsplit
          (nodeSearch_bound _ _ _ _ _ _ hsear hinv)
    · simp only [hsear]
      intro hpair
      have hh : h1 = h' := congrArg Prod.snd hpair
      rw [← hh]
      exact nodeSearch_bound _ _ _ _ _ _ hsear hinv
  have hm1 : 1 ≤ m.toNat := by omega
  have haddr : (h' j).address < 4096 := by
    have := hbound j
    rw [MEM_PAGESIZE] at this
    omega
  have hva' : va = 16384 + (h' j).address := by
    rw [hva, MEM_PAGESIZE]
    show 4096 * 4 ||| (h' j).address = 16384 + (h' j).address
    rw [show (4096 * 4 : Nat) = 16384 from by norm_num, lor_heap_page _ haddr]
  rw [MEM_PAGESIZE]
  exact ⟨by omega, by omega, by omega, by omega⟩

/-- Witness for C10: the address returned by `malloc 20` on the initial
heap passes every range test of `mfree`. -/
theorem malloc_address_in_heap_page_witness :
    4 * MEM_PAGESIZE ≤ 16384 ∧ 16384 < 5 * MEM_PAGESIZE ∧ ((16384 : Nat) : Int) ≠ 0 ∧
      ¬(5 * (MEM_PAGESIZE : Int) ≤ ((16384 : Nat) : Int) ∨
        ((16384 : Nat) : Int) < 4 * (MEM_PAGESIZE : Int)) :=
  malloc_address_in_heap_page initialHeap 20 16384 (malloc initialHeap 20).2
    (fun k => by by_cases hk : k = 1 <;> simp [initialHeap, hk, MEM_PAGESIZE])
    (by
      have h1 : (malloc initialHeap 20).1 = some 16384 := by decide
      calc malloc initialHeap 20
          = ((malloc initialHeap 20).1, (malloc initialHeap 20).2) := rfl
        _ = (some 16384, (malloc initialHeap 20).2) := by rw [h1])

/-- Witness for C4: on the initial heap, `malloc (-1)` is rejected, and
`malloc 20` succeeds with a block of size 32. -/
theorem malloc_bounded_fragmentation_witness :
    malloc initialHeap (-1) = (none, initialHeap) ∧
      ∃ j, ((malloc initialHeap 20).2 j).inuse = 1 ∧
        (16384 : Nat) = MEM_PAGESIZE * 4 ||| ((malloc initialHeap 20).2 j).address ∧
        (20 : Int).toNat ≤ ((malloc initialHeap 20).2 j).size ∧
        ((malloc initialHeap 20).2 j).size < 2 * (20 : Int).toNat := by
  constructor
  · exact (malloc_bounded_fragmentation initialHeap (-1)).1 (Or.inl (by norm_num))
  · refine (malloc_bounded_fragmentation initialHeap 20).2 16384 (malloc initialHeap 20).2 ?_
    have h1 : (malloc initialHeap 20).1 = some 16384 := by decide
    calc malloc initialHeap 20
        = ((malloc initialHeap 20).1, (malloc initialHeap 20).2) := rfl
      _ = (some 16384, (malloc initialHeap 20).2) := by rw [h1]

/-- Witness for C7: 40960 bytes of memory (10 frames, 2 reserved), the legal
call sequence [alloc, free 2]. -/
theorem frame_conservation_witness :
    legalTrace (MemoryModuleInit 40960 4096) ∅ [FrameOp.alloc, FrameOp.free 2] = true ∧
      ((runTrace (MemoryModuleInit 40960 4096) ∅ [FrameOp.alloc, FrameOp.free 2]).1).nfreepages
          + (allocatedCount (40960 / MEM_PAGESIZE)
              (runTrace (MemoryModuleInit 40960 4096) ∅ [FrameOp.alloc, FrameOp.free 2]).1 : Int)
        = ((40960 / MEM_PAGESIZE : Nat) : Int) :=
  ⟨by decide,
    frame_conservation 40960 4096 [FrameOp.alloc, FrameOp.free 2] (by norm_num) (by decide)⟩

theorem resetNode_self (h : Heap) (i : Nat) :
    resetNode h i i = { h i with inuse := 0, left := none, right := none } := by
  rw [resetNode, hset_self]

theorem resetNode_other (h : Heap) (i k : Nat) (hk : k ≠ i) : resetNode h i k = h k := by
  rw [resetNode, hset_other _ _ _ _ hk]

/-- The only mutation `MemoryCoalescing` ever performs is resetting nodes:
every node of the result is either untouched or has been reset (child links
detached, `inuse` cleared). -/
theorem coalescing_resets :
    ∀ (fuel : Nat) (h : Heap) (oi : Option Nat) (h2 : Heap),
      MemoryCoalescing fuel h oi = some h2 →
      ∀ k, h2 k = h k ∨
        ((h2 k).left = none ∧ (h2 k).right = none ∧ (h2 k).inuse = 0) := by
  intro fuel
  induction fuel with
  | zero =>
    intro h oi h2 hc k
    cases oi with
    | none => rw [← Option.some.inj hc]; left; rfl
    | some i => simp [MemoryCoalescing] at hc
  | succ n ih =>
    intro h oi h2 hc k
    cases oi with
    | none => rw [← Option.some.inj hc]; left; rfl
    | some i =>
      have hreset : ∀ j, resetNode h i j = h j ∨
          ((resetNode h i j).left = none ∧ (resetNode h i j).right = none ∧
            (resetNode h i j).inuse = 0) := by
        intro j
        by_cases hj : j = i
        · subst hj
          right
          rw [resetNode_self]
          exact ⟨rfl, rfl, rfl⟩
        · left
          exact resetNode_other h i j hj
      have hcompose : ∀ j, (h2 j = resetNode h i j ∨
            ((h2 j).left = none ∧ (h2 j).right = none ∧ (h2 j).inuse = 0)) →
          (h2 j = h j ∨ ((h2 j).left = none ∧ (h2 j).right = none ∧ (h2 j).inuse = 0)) := by
        intro j hj
        rcases hj with hj | hj
        · rcases hreset j with hr | hr
          · left; rw [hj, hr]
          · right; rw [hj]; exact hr
        · right; exact hj
      simp only [MemoryCoalescing] at hc
      rcases hpar : ((resetNode h i) i).parent with _ | p
      · simp only [hpar] at hc
        refine hcompose k ?_
        left
        rw [← Option.some.inj hc]
      · simp only [hpar] at hc
        by_cases hil : ((resetNode h i) p).left = some i
        · rw [if_pos hil] at hc
          rcases hr : ((resetNode h i) p).right with _ | r
          · simp only [hr] at hc
            exact absurd hc (by simp)
          · simp only [hr] at hc
            by_cases hri : ((resetNode h i) r).inuse = 0
            · rw [if_pos hri] at hc
              exact hcompose k (ih (resetNode h i) (some p) h2 hc k)
            · rw [if_neg hri] at hc
              refine hcompose k ?_
              left
              rw [← Option.some.inj hc]
        · rw [if_neg hil] at hc
          rcases hl : ((resetNode h i) p).left with _ | l
          · simp only [hl] at hc
            exact absurd hc (by simp)
          · simp only [hl] at hc
            by_cases hli : ((resetNode h i) l).inuse = 0
            · rw [if_pos hli] at hc
              exact hcompose k (ih (resetNode h i) (some p) h2 hc k)
            · rw [if_neg hli] at hc
              refine hcompose k ?_
              left
              rw [← Option.some.inj hc]

/-- Whenever a `MemoryCoalescing` call starting at node `p` completes, node
`p` has been reverted to a free leaf (its child links destroyed). -/
theorem coalescing_start_reset :
    ∀ (fuel : Nat) (h : Heap) (p : Nat) (h2 : Heap),
      MemoryCoalescing fuel h (some p) = some h2 →
      (h2 p).left = none ∧ (h2 p).right = none ∧ (h2 p).inuse = 0 := by
  intro fuel
  cases fuel with
  | zero => intro h p h2 hc; simp [MemoryCoalescing] at hc
  | succ n =>
    intro h p h2 hc
    have hrp : (resetNode h p p).left = none ∧ (resetNode h p p).right = none ∧
        (resetNode h p p).inuse = 0 := by
      rw [resetNode_self]
      exact ⟨rfl, rfl, rfl⟩
    have hdone : ∀ hres : Heap, hres = h2 →
        ((hres p).left = none ∧ (hres p).right = none ∧ (hres p).inuse = 0) →
        ((h2 p).left = none ∧ (h2 p).right = none ∧ (h2 p).inuse = 0) := by
      intro hres he hp
      rw [← he]; exact hp
    have hrec : ∀ q, MemoryCoalescing n (resetNode h p) (some q) = some h2 →
        ((h2 p).left = none ∧ (h2 p).right = none ∧ (h2 p).inuse = 0) := by
      intro q hc2
      rcases coalescing_resets n (resetNode h p) (some q) h2 hc2 p with he | he
      · rw [he]; exact hrp
      · exact he
    simp only [MemoryCoalescing] at hc
    rcases hpar : ((resetNode h p) p).parent with _ | pp
    · simp only [hpar] at hc
      exact hdone _ (Option.some.inj hc) hrp
    · simp only [hpar] at hc
      by_cases hil : ((resetNode h p) pp).left = some p
      · rw [if_pos hil] at hc
        rcases hr : ((resetNode h p) pp).right with _ | r
        · simp only [hr] at hc
          exact absurd hc (by simp)
        · simp only [hr] at hc
          by_cases hri : ((resetNode h p) r).inuse = 0
          · rw [if_pos hri] at hc
            exact hrec pp hc
          · rw [if_neg hri] at hc
            exact hdone _ (Option.some.inj hc) hrp
      · rw [if_neg hil] at hc
        rcases hl : ((resetNode h p) pp).left with _ | l
        · simp only [hl] at hc
          exact absurd hc (by simp)
        · simp only [hl] at hc
          by_cases hli : ((resetNode h p) l).inuse = 0
          · rw [if_pos hli] at hc
            exact hrec pp hc
          · rw [if_neg hli] at hc
            exact hdone _ (Option.some.inj hc) hrp

/-- C5: coalescing behavior at a node `i` with parent `p` and sibling `j`.
If the sibling is still allocated (`inuse ≠ 0`), `MemoryCoalescing` only
resets node `i` and the parent keeps both of its child links — it stays
split.  If the sibling is free (`inuse = 0`), the call continues as a
coalescing call one level up on the parent (the merging repeats level by
level until a non-free sibling or the root stops it, by the same recursion),
and whenever that call completes the parent has been reverted to a free
leaf: both its child links are destroyed. -/
theorem coalescing_buddy_merge (h : Heap) (n i p j : Nat)
    (hpar : (h i).parent = some p) (hpi : p ≠ i) (hji : j ≠ i)
    (hchild : ((h p).left = some i ∧ (h p).right = some j) ∨
      ((h p).left = some j ∧ (h p).right = some i)) :
    ((h j).inuse ≠ 0 →
      MemoryCoalescing (n + 1) h (some i) = some (resetNode h i) ∧
        ((resetNode h i) p).left = (h p).left ∧
        ((resetNode h i) p).right = (h p).right) ∧
    ((h j).inuse = 0 →
      MemoryCoalescing (n + 1) h (some i)
          = MemoryCoalescing n (resetNode h i) (some p) ∧
        ∀ h2, MemoryCoalescing n (resetNode h i) (some p) = some h2 →
          (h2 p).left = none ∧ (h2 p).right = none ∧ (h2 p).inuse = 0) := by
  have hrp : resetNode h i p = h p := resetNode_other h i p hpi
  have hrj : resetNode h i j = h j := resetNode_other h i j hji
  have hppar : ((resetNode h i) i).parent = some p := by
    rw [resetNode_self]
    exact hpar
  have hstep : MemoryCoalescing (n + 1) h (some i)
      = if (h j).inuse = 0 then MemoryCoalescing n (resetNode h i) (some p)
        else some (resetNode h i) := by
    simp only [MemoryCoalescing]
    simp only [hppar]
    rcases hchild with ⟨hcl, hcr⟩ | ⟨hcl, hcr⟩
    · rw [if_pos (by rw [hrp]; exact hcl)]
      have hcr' : ((resetNode h i) p).right = some j := by rw [hrp]; exact hcr
      simp only [hcr']
      rw [show ((resetNode h i) j).inuse = (h j).inuse from by rw [hrj]]
    · have hne : ((resetNode h i) p).left ≠ some i := by
        rw [hrp, hcl]
        intro hcon
        exact hji (Option.some.inj hcon)
      rw [if_neg hne]
      have hcl' : ((resetNode h i) p).left = some j := by rw [hrp]; exact hcl
      simp only [hcl']
      rw [show ((resetNode h i) j).inuse = (h j).inuse from by rw [hrj]]
  constructor
  · intro hj
    rw [hstep, if_neg hj]
    exact ⟨rfl, by rw [hrp], by rw [hrp]⟩
  · intro hj
    rw [hstep, if_pos hj]
    exact ⟨rfl, fun h2 hc => coalescing_start_reset n (resetNode h i) p h2 hc⟩

/-- Witness for C5: freeing node 2 of `heapW` (sibling 3 allocated) only
resets node 2 and leaves the root split; freeing node 2 of `heapW2`
(sibling 3 free) continues coalescing at the root, which ends up a leaf. -/
theorem coalescing_buddy_merge_witness :
    (MemoryCoalescing 6 heapW (some 2) = some (resetNode heapW 2) ∧
        ((resetNode heapW 2) 1).left = (heapW 1).left ∧
        ((resetNode heapW 2) 1).right = (heapW 1).right) ∧
      (MemoryCoalescing 6 heapW2 (some 2)
          = MemoryCoalescing 5 (resetNode heapW2 2) (some 1) ∧
        ∀ h2, MemoryCoalescing 5 (resetNode heapW2 2) (some 1) = some h2 →
          (h2 1).left = none ∧ (h2 1).right = none ∧ (h2 1).inuse = 0) :=
  ⟨(coalescing_buddy_merge heapW 5 2 1 3 (by decide) (by decide) (by decide)
        (Or.inl ⟨by decide, by decide⟩)).1 (by decide),
    (coalescing_buddy_merge heapW2 5 2 1 3 (by decide) (by decide) (by decide)
        (Or.inl ⟨by decide, by decide⟩)).2 (by decide)⟩

end Memory

